import Mathlib

/-!
Shallow embedding of the printf-format conversion engine in
`src/c2rust-refactor/src/transform/format.rs`.

Format strings are modelled as `List Char`.  The Rust parser works over the
byte view of the string; all characters it inspects (`%`, digits, `*`, `.`,
the conversion letters, NUL, newline) are ASCII, so the character-level view
agrees with the byte-level one on every path the claims exercise.  Rust
panics (unrecognized conversion letter, out-of-bounds `peek`, and
`usize::from_str("").unwrap()`) are modelled as `Except.error` values, since
a panic aborts the whole call-site conversion and produces no output.
-/

namespace FormatRs

/-- Mirror of `enum ConvType` (format.rs lines 265-273). -/
inductive ConvType where
  | Int : ConvType
  | Uint : ConvType
  | Hex : Bool → ConvType
  | Char : ConvType
  | Str : ConvType
  deriving DecidableEq, Repr

/-- Mirror of `enum CastType` (format.rs lines 230-237).  The spec calls
these `AsSignedInt32`, `AsUnsignedInt32`, `AsUsize`, `AsCharFromByte`,
`AsDecodedCString` respectively. -/
inductive CastType where
  | Int : CastType
  | Uint : CastType
  | Usize : CastType
  | Char : CastType
  | Str : CastType
  deriving DecidableEq, Repr

/-- Mirror of `enum Amount` (format.rs lines 275-279). -/
inductive Amount where
  | Number : Nat → Amount
  | NextArg : Amount
  deriving DecidableEq, Repr

/-- Mirror of `struct Conv` (format.rs lines 281-286). -/
structure Conv where
  ty : ConvType
  width : Option Amount
  prec : Option Amount
  deriving DecidableEq, Repr

/-- Mirror of `enum Piece` (format.rs lines 347-351). -/
inductive Piece where
  | Text : List Char → Piece
  | Conv : FormatRs.Conv → Piece
  deriving DecidableEq, Repr

/-- The panics of the Rust engine, reified as error values.
`MalformedSpecifier c` is the `panic!("unrecognized conversion spec")` in
`parse_conv_type`; `UnexpectedEndOfFormat` is the out-of-bounds slice access
in `Parser::peek`; `EmptyAmount` is `usize::from_str("").unwrap()` in
`parse_amount`; `BadFormatString` is the `panic!("unexpected format string")`
in `build_format_macro`. -/
inductive ParseError where
  | MalformedSpecifier : Char → ParseError
  | UnexpectedEndOfFormat : ParseError
  | EmptyAmount : ParseError
  | BadFormatString : ParseError
  deriving DecidableEq, Repr

/-- A small model of the Rust AST expressions the transform builds and
inspects (`P<Expr>` values; `mk().cast_expr`, `mk().mac`, ...). -/
inductive RExpr where
  | lit : List Char → RExpr
  | cast : RExpr → List Char → RExpr
  | typeAscription : RExpr → List Char → RExpr
  | call : RExpr → List RExpr → RExpr
  | methodCall : RExpr → List Char → List RExpr → RExpr
  | pathExpr : List (List Char) → RExpr
  | blockExpr : List RExpr → RExpr
  | mac : List Char → List Char → List RExpr → RExpr
  | var : Nat → RExpr

def i32_ty : List Char := ['i', '3', '2']

def u32_ty : List Char := ['u', '3', '2']

def usize_ty : List Char := ['u', 's', 'i', 'z', 'e']

def u8_ty : List Char := ['u', '8']

def char_ty : List Char := ['c', 'h', 'a', 'r']

def const_c_char_ty : List Char :=
  ['*', 'c', 'o', 'n', 's', 't', ' ', 'l', 'i', 'b', 'c', ':', ':', 'c', '_', 'c', 'h', 'a', 'r']

def cstr_from_ptr_path : List (List Char) :=
  [['s', 't', 'd'], ['f', 'f', 'i'], ['C', 'S', 't', 'r'], ['f', 'r', 'o', 'm', '_', 'p', 't', 'r']]

def to_str_name : List Char := ['t', 'o', '_', 's', 't', 'r']

def unwrap_name : List Char := ['u', 'n', 'w', 'r', 'a', 'p']

def format_args_name : List Char :=
  ['f', 'o', 'r', 'm', 'a', 't', '_', 'a', 'r', 'g', 's']

/-- Mirror of `CastType::apply` (format.rs lines 239-263): wrap an argument
expression in the cast for the given cast type. -/
def cast_apply : CastType → RExpr → RExpr
  | .Int, e => .cast e i32_ty
  | .Uint, e => .cast e u32_ty
  | .Usize, e => .cast e usize_ty
  | .Char, e => .cast (.cast e u8_ty) char_ty
  | .Str, e =>
    .blockExpr
      [.methodCall
        (.methodCall
          (.call (.pathExpr cstr_from_ptr_path) [.cast e const_c_char_ty])
          to_str_name [])
        unwrap_name []]

/-- ASCII digit test: the byte comparisons `b'0' <= c && c <= b'9'`
(format.rs line 425). -/
def is_ascii_digit (c : Char) : Bool :=
  decide (48 ≤ c.toNat ∧ c.toNat ≤ 57)

/-- The width-start test `b'1' <= peek && peek <= b'9'` (format.rs line 402). -/
def is_nonzero_digit (c : Char) : Bool :=
  decide (49 ≤ c.toNat ∧ c.toNat ≤ 57)

def digit_val (c : Char) : Nat := c.toNat - 48

/-- Value of a (nonempty, all-digit) decimal digit list, as computed by
`usize::from_str` (format.rs line 430); `Nat` stands in for `usize`. -/
def digits_to_nat (ds : List Char) : Nat :=
  ds.foldl (fun a c => a * 10 + digit_val c) 0

/-- Mirror of `Parser::parse_amount` (format.rs lines 418-431).  Takes the
remaining input; returns the parsed amount and the rest.  An empty input
models the out-of-bounds `peek`; an empty digit run models the
`usize::from_str("").unwrap()` panic. -/
def parse_amount : List Char → Except ParseError (Amount × List Char)
  | [] => .error .UnexpectedEndOfFormat
  | c :: rest =>
    if c = '*' then .ok (.NextArg, rest)
    else
      let ds := (c :: rest).takeWhile is_ascii_digit
      let r := (c :: rest).dropWhile is_ascii_digit
      if ds.isEmpty then .error .EmptyAmount
      else .ok (.Number (digits_to_nat ds), r)

/-- Mirror of `Parser::parse_conv_type` (format.rs lines 433-446). -/
def parse_conv_type : List Char → Except ParseError (ConvType × List Char)
  | [] => .error .UnexpectedEndOfFormat
  | c :: rest =>
    if c = 'd' then .ok (.Int, rest)
    else if c = 'u' then .ok (.Uint, rest)
    else if c = 'x' then .ok (.Hex false, rest)
    else if c = 'X' then .ok (.Hex true, rest)
    else if c = 'c' then .ok (.Char, rest)
    else if c = 's' then .ok (.Str, rest)
    else .error (.MalformedSpecifier c)

/-- The optional-width step of `Parser::parse` (format.rs lines 402-404):
peek (panicking on end of input), and parse an amount only when the peeked
byte is `1`-`9` or `*`. -/
def parse_width_opt (cs : List Char) : Except ParseError (Option Amount × List Char) :=
  match cs with
  | [] => .error .UnexpectedEndOfFormat
  | c :: _ =>
    if is_nonzero_digit c || (c == '*') then
      (parse_amount cs).map (fun p => (some p.1, p.2))
    else .ok (none, cs)

/-- The optional-precision step of `Parser::parse` (format.rs lines
405-408): peek (panicking on end of input), and parse an amount after a
literal `.`. -/
def parse_prec_opt (cs : List Char) : Except ParseError (Option Amount × List Char) :=
  match cs with
  | [] => .error .UnexpectedEndOfFormat
  | d :: rest2 =>
    if d == '.' then
      (parse_amount rest2).map (fun p => (some p.1, p.2))
    else .ok (none, cs)

/-- The specifier portion of `Parser::parse` (format.rs lines 402-409):
optional width, optional `.`-prefixed precision, mandatory type letter.
Input is the remaining string just after the `%`. -/
def parse_spec_tail (cs : List Char) : Except ParseError (FormatRs.Conv × List Char) :=
  match parse_width_opt cs with
  | .error e => .error e
  | .ok (w, rest1) =>
    match parse_prec_opt rest1 with
    | .error e => .error e
    | .ok (p, rest3) =>
      match parse_conv_type rest3 with
      | .error e => .error e
      | .ok (t, rest4) => .ok ({ ty := t, width := w, prec := p }, rest4)

def text_pieces (t : List Char) : List Piece :=
  if t.isEmpty then [] else [.Text t]

/-- Fuelled main loop of `Parser::parse` together with `Parser::next_conv`
(format.rs lines 378-416).  Each loop iteration consumes at least one
character, so `cs.length + 1` fuel always suffices; the fuel-0 branch is
unreachable from `parse` below. -/
def parse_go : Nat → List Char → Except ParseError (List Piece)
  | 0, _ => .error .UnexpectedEndOfFormat
  | fuel + 1, cs =>
    match cs.dropWhile (fun c => c != '%') with
    | [] => .ok (text_pieces (cs.takeWhile (fun c => c != '%')))
    | _ :: rest =>
      match rest with
      | [] => .error .UnexpectedEndOfFormat
      | c :: rest2 =>
        if c == '%' then
          match parse_go fuel rest2 with
          | .error e => .error e
          | .ok ps =>
            .ok (text_pieces (cs.takeWhile (fun c => c != '%')) ++ .Text ['%'] :: ps)
        else
          match parse_spec_tail rest with
          | .error e => .error e
          | .ok (cv, rest3) =>
            match parse_go fuel rest3 with
            | .error e => .error e
            | .ok ps =>
              .ok (text_pieces (cs.takeWhile (fun c => c != '%')) ++ .Conv cv :: ps)

/-- `Parser::parse` on a whole format string: the piece sequence delivered to
the callback, or the first fatal error. -/
def parse (cs : List Char) : Except ParseError (List Piece) :=
  parse_go (cs.length + 1) cs

def nul_char : Char := Char.ofNat 0

def newline_char : Char := Char.ofNat 10

def lbrace : Char := Char.ofNat 123

def rbrace : Char := Char.ofNat 125

/-- Amount rendering inside `Conv::push_spec`: `n.to_string()` for a literal,
`*` for the next-argument marker (format.rs lines 322-335). -/
def amount_text : Amount → List Char
  | .Number n => (Nat.repr n).toList
  | .NextArg => ['*']

/-- Mirror of `Conv::push_spec` (format.rs lines 319-344): the target-dialect
placeholder text for one specifier. -/
def push_spec (c : FormatRs.Conv) : List Char :=
  [lbrace, ':']
    ++ (match c.width with
        | some a => amount_text a
        | none => [])
    ++ (match c.prec with
        | some a => '.' :: amount_text a
        | none => [])
    ++ (match c.ty with
        | .Hex false => ['x']
        | .Hex true => ['X']
        | _ => [])
    ++ [rbrace]

/-- Mirror of `Conv::add_casts` (format.rs lines 297-317).  The Rust
`HashMap` is modelled as an insertion-ordered association list; the inserted
keys are strictly increasing, so no key is ever inserted twice and
first-match lookup agrees with the map. -/
def add_casts (c : FormatRs.Conv) (idx : Nat) (casts : List (Nat × CastType)) :
    Nat × List (Nat × CastType) :=
  let s1 : Nat × List (Nat × CastType) :=
    if c.width = some Amount.NextArg then (idx + 1, casts ++ [(idx, CastType.Usize)])
    else (idx, casts)
  let s2 : Nat × List (Nat × CastType) :=
    if c.prec = some Amount.NextArg then (s1.1 + 1, s1.2 ++ [(s1.1, CastType.Usize)])
    else s1
  let ct : CastType :=
    match c.ty with
    | .Int => .Int
    | .Uint => .Uint
    | .Hex _ => .Uint
    | .Char => .Char
    | .Str => .Str
  (s2.1 + 1, s2.2 ++ [(s2.1, ct)])

/-- The piece callback of `build_format_macro` (format.rs lines 116-122),
run over the whole piece sequence: accumulate the output buffer, the running
argument-index counter and the coercion table. -/
def run_pieces : List Piece → List Char → Nat → List (Nat × CastType) →
    List Char × Nat × List (Nat × CastType)
  | [], buf, idx, casts => (buf, idx, casts)
  | .Text s :: ps, buf, idx, casts => run_pieces ps (buf ++ s) idx casts
  | .Conv c :: ps, buf, idx, casts =>
    let st := add_casts c idx casts
    run_pieces ps (buf ++ push_spec c) st.1 st.2

/-- The trailing-NUL stripping loop `while new_s.ends_with("\0") { pop }`
(format.rs lines 124-126). -/
def strip_nuls (buf : List Char) : List Char :=
  (buf.reverse.dropWhile (fun c => c == nul_char)).reverse

/-- Parse a format string and run the assembly callback: the NUL-stripped
output buffer plus the coercion table (format.rs lines 112-126, before the
newline-variant choice).  The counter starts at 0 (`let mut idx = 0`,
line 115). -/
def assemble_format (s : List Char) :
    Except ParseError (List Char × List (Nat × CastType)) :=
  match parse s with
  | .error e => .error e
  | .ok ps =>
    let r := run_pieces ps [] 0 []
    .ok (strip_nuls r.1, r.2.2)

/-- The newline-variant decision (format.rs lines 127-133): if the
NUL-stripped buffer ends with a newline and a newline-variant macro name was
supplied, pop the newline and use that name; otherwise keep the buffer and
the plain name. -/
def choose_variant (name : List Char) (ln : Option (List Char)) (buf : List Char) :
    List Char × List Char :=
  match ln with
  | some lname =>
    if buf.getLast? = some newline_char then (lname, buf.dropLast) else (name, buf)
  | none => (name, buf)

/-- `HashMap::get` on the modelled coercion table. -/
def casts_find (i : Nat) : List (Nat × CastType) → Option CastType
  | [] => none
  | e :: rest => if e.1 = i then some e.2 else casts_find i rest

/-- The argument-rebuilding loop of `build_format_macro` (format.rs lines
144-150): walk the arguments after the format string with a running
position, keeping (coerced) exactly those whose position is in the table. -/
def coerce_args (casts : List (Nat × CastType)) : Nat → List RExpr → List RExpr
  | _, [] => []
  | i, a :: rest =>
    match casts_find i casts with
    | some ct => cast_apply ct a :: coerce_args casts (i + 1) rest
    | none => coerce_args casts (i + 1) rest

/-- Core of `build_format_macro` (format.rs lines 112-152) once the format
string `s` has been extracted: the produced macro invocation (name, rendered
format string, rebuilt argument list).  `fmt_args` is the argument slice
whose head is the format-string argument. -/
def build_format_mac (name : List Char) (ln : Option (List Char)) (s : List Char)
    (fmt_args : List RExpr) : Except ParseError RExpr :=
  match assemble_format s with
  | .error e => .error e
  | .ok r =>
    let nv := choose_variant name ln r.1
    .ok (.mac nv.1 nv.2 (coerce_args r.2 0 (fmt_args.drop 1)))

/-- The cast-peeling loop of `build_format_macro` (format.rs lines 98-110):
strip `Cast` and `Type` wrappers down to the inner literal. -/
def peel_lit : RExpr → Option (List Char)
  | .lit s => some s
  | .cast e _ => peel_lit e
  | .typeAscription e _ => peel_lit e
  | _ => none

/-- `build_format_macro` from its real inputs (format.rs lines 88-111):
default the format-string expression to `fmt_args[0]`, peel casts to the
literal, then build. -/
def build_format_mac_from_args (name : List Char) (ln : Option (List Char))
    (old_fmt : Option RExpr) (fmt_args : List RExpr) : Except ParseError RExpr :=
  match (match old_fmt with
         | some e => some e
         | none => fmt_args.head?) with
  | none => .error .BadFormatString
  | some fe =>
    match peel_lit fe with
    | none => .error .BadFormatString
    | some s => build_format_mac name ln s fmt_args

/-- The call rewrite of `ConvertFormatArgs::transform` (format.rs lines
62-83): with `k` the position of the marked format-string argument, keep the
callee and the first `k` arguments, and replace the rest by the single
`format_args!` macro expression. -/
def convert_format_args (f : RExpr) (args : List RExpr) (k : Nat)
    (old_fmt : Option RExpr) : Except ParseError RExpr :=
  match build_format_mac_from_args format_args_name none old_fmt (args.drop k) with
  | .error e => .error e
  | .ok m => .ok (.call f (args.take k ++ [m]))

end FormatRs

namespace FormatRs

theorem takeWhile_all_append {α : Type} (p : α → Bool) {t : List α} (r : List α)
    (h : ∀ c ∈ t, p c = true) : (t ++ r).takeWhile p = t ++ r.takeWhile p := by
  induction t with
  | nil => simp
  | cons a t ih =>
    have ha : p a = true := h a (List.mem_cons_self a t)
    simp only [List.cons_append, List.takeWhile_cons_of_pos ha]
    rw [ih (fun c hc => h c (List.mem_cons_of_mem a hc))]

theorem dropWhile_all_append {α : Type} (p : α → Bool) {t : List α} (r : List α)
    (h : ∀ c ∈ t, p c = true) : (t ++ r).dropWhile p = r.dropWhile p := by
  induction t with
  | nil => simp
  | cons a t ih =>
    have ha : p a = true := h a (List.mem_cons_self a t)
    simp only [List.cons_append, List.dropWhile_cons_of_pos ha]
    exact ih (fun c hc => h c (List.mem_cons_of_mem a hc))

theorem nonpercent_bool {t : List Char} (h : ∀ c ∈ t, c ≠ '%') :
    ∀ c ∈ t, (c != '%') = true := by
  intro c hc
  simpa using h c hc

theorem dropWhile_to_percent {t : List Char} (r : List Char) (h : ∀ c ∈ t, c ≠ '%') :
    (t ++ '%' :: r).dropWhile (fun c => c != '%') = '%' :: r := by
  rw [dropWhile_all_append _ _ (nonpercent_bool h)]
  simp

theorem takeWhile_to_percent {t : List Char} (r : List Char) (h : ∀ c ∈ t, c ≠ '%') :
    (t ++ '%' :: r).takeWhile (fun c => c != '%') = t := by
  rw [takeWhile_all_append _ _ (nonpercent_bool h)]
  simp

theorem parse_amount_length {cs r : List Char} {a : Amount}
    (h : parse_amount cs = .ok (a, r)) : r.length < cs.length := by
  match cs with
  | [] => simp [parse_amount] at h
  | c :: rest =>
    simp only [parse_amount] at h
    by_cases h1 : c = '*'
    · rw [if_pos h1] at h
      simp only [Except.ok.injEq, Prod.mk.injEq] at h
      simp [← h.2]
    · rw [if_neg h1] at h
      by_cases h2 : ((c :: rest).takeWhile is_ascii_digit).isEmpty = true
      · rw [if_pos h2] at h
        cases h
      · rw [if_neg h2] at h
        simp only [Except.ok.injEq, Prod.mk.injEq] at h
        have hc : is_ascii_digit c = true := by
          by_contra hneg
          rw [List.takeWhile_cons_of_neg (by simpa using hneg)] at h2
          simp at h2
        rw [← h.2, List.dropWhile_cons_of_pos hc]
        have := (List.dropWhile_sublist (l := rest) is_ascii_digit).length_le
        simp only [List.length_cons]
        omega

theorem parse_conv_type_length {cs r : List Char} {t : ConvType}
    (h : parse_conv_type cs = .ok (t, r)) : r.length < cs.length := by
  match cs with
  | [] => simp [parse_conv_type] at h
  | c :: rest =>
    simp only [parse_conv_type] at h
    split_ifs at h <;> simp only [Except.ok.injEq, Prod.mk.injEq] at h <;> simp [← h.2]

theorem parse_width_opt_length {cs r : List Char} {w : Option Amount}
    (h : parse_width_opt cs = .ok (w, r)) : r.length ≤ cs.length := by
  match cs with
  | [] => simp [parse_width_opt] at h
  | c :: rest =>
    simp only [parse_width_opt] at h
    split_ifs at h
    · match hpa : parse_amount (c :: rest) with
      | .error e => rw [hpa] at h; cases h
      | .ok p =>
        rw [hpa] at h
        simp only [Except.map, Except.ok.injEq, Prod.mk.injEq] at h
        have := parse_amount_length hpa
        rw [← h.2]
        omega
    · simp only [Except.ok.injEq, Prod.mk.injEq] at h
      rw [← h.2]

theorem parse_prec_opt_length {cs r : List Char} {p : Option Amount}
    (h : parse_prec_opt cs = .ok (p, r)) : r.length ≤ cs.length := by
  match cs with
  | [] => simp [parse_prec_opt] at h
  | d :: rest =>
    simp only [parse_prec_opt] at h
    split_ifs at h
    · match hpa : parse_amount rest with
      | .error e => rw [hpa] at h; cases h
      | .ok q =>
        rw [hpa] at h
        simp only [Except.map, Except.ok.injEq, Prod.mk.injEq] at h
        have := parse_amount_length hpa
        rw [← h.2]
        simp only [List.length_cons]
        omega
    · simp only [Except.ok.injEq, Prod.mk.injEq] at h
      rw [← h.2]

theorem parse_spec_tail_length {cs r : List Char} {cv : FormatRs.Conv}
    (h : parse_spec_tail cs = .ok (cv, r)) : r.length < cs.length := by
  rw [parse_spec_tail] at h
  match hw : parse_width_opt cs with
  | .error e => rw [hw] at h; cases h
  | .ok (w, rest1) =>
    rw [hw] at h
    dsimp only at h
    match hp : parse_prec_opt rest1 with
    | .error e => rw [hp] at h; cases h
    | .ok (p, rest3) =>
      rw [hp] at h
      dsimp only at h
      match ht : parse_conv_type rest3 with
      | .error e => rw [ht] at h; cases h
      | .ok (t, rest4) =>
        rw [ht] at h
        dsimp only at h
        simp only [Except.ok.injEq, Prod.mk.injEq] at h
        have l1 := parse_width_opt_length hw
        have l2 := parse_prec_opt_length hp
        have l3 := parse_conv_type_length ht
        rw [← h.2]
        omega

theorem dropWhile_length_le {α : Type} (p : α → Bool) (l : List α) :
    (l.dropWhile p).length ≤ l.length :=
  (List.dropWhile_sublist p).length_le

theorem parse_go_mono (f1 : Nat) : ∀ (f2 : Nat) (cs : List Char), cs.length < f1 →
    cs.length < f2 → parse_go f1 cs = parse_go f2 cs := by
  induction f1 with
  | zero => intro f2 cs h1 h2; omega
  | succ n ih =>
    intro f2 cs h1 h2
    match f2 with
    | 0 => omega
    | m + 1 =>
      rw [parse_go, parse_go]
      match hdw : cs.dropWhile (fun c => c != '%') with
      | [] => rfl
      | [x] => rfl
      | x :: c :: rest2 =>
        have hlen : rest2.length + 2 ≤ cs.length := by
          have := dropWhile_length_le (fun c => c != '%') cs
          rw [hdw] at this
          simpa using this
        dsimp only
        by_cases hc : (c == '%') = true
        · rw [if_pos hc, if_pos hc, ih m rest2 (by omega) (by omega)]
        · rw [if_neg hc, if_neg hc]
          match hst : parse_spec_tail (c :: rest2) with
          | .error e => rfl
          | .ok (cv, rest3) =>
            have hl3 := parse_spec_tail_length hst
            simp only [List.length_cons] at hl3
            dsimp only
            rw [ih m rest3 (by omega) (by omega)]

theorem parse_go_eq_parse {fuel : Nat} {cs : List Char} (h : cs.length < fuel) :
    parse_go fuel cs = parse cs :=
  parse_go_mono fuel (cs.length + 1) cs h (by omega)

/-- One unfolding step of `parse`: the loop body of `Parser::parse` with the
recursive occurrences expressed through `parse` itself. -/
theorem parse_step (cs : List Char) :
    parse cs =
      match cs.dropWhile (fun c => c != '%') with
      | [] => .ok (text_pieces (cs.takeWhile (fun c => c != '%')))
      | _ :: rest =>
        match rest with
        | [] => .error .UnexpectedEndOfFormat
        | c :: rest2 =>
          if c == '%' then
            match parse rest2 with
            | .error e => .error e
            | .ok ps =>
              .ok (text_pieces (cs.takeWhile (fun c => c != '%')) ++ .Text ['%'] :: ps)
          else
            match parse_spec_tail rest with
            | .error e => .error e
            | .ok (cv, rest3) =>
              match parse rest3 with
              | .error e => .error e
              | .ok ps =>
                .ok (text_pieces (cs.takeWhile (fun c => c != '%')) ++ .Conv cv :: ps) := by
  rw [parse, parse_go]
  match hdw : cs.dropWhile (fun c => c != '%') with
  | [] => rfl
  | [x] => rfl
  | x :: c :: rest2 =>
    have hlen : rest2.length + 2 ≤ cs.length := by
      have := dropWhile_length_le (fun c => c != '%') cs
      rw [hdw] at this
      simpa using this
    dsimp only
    by_cases hc : (c == '%') = true
    · have hb : rest2.length < cs.length := by omega
      rw [if_pos hc, if_pos hc, parse_go_eq_parse hb]
    · rw [if_neg hc, if_neg hc]
      match hst : parse_spec_tail (c :: rest2) with
      | .error e => rfl
      | .ok (cv, rest3) =>
        have hl3 := parse_spec_tail_length hst
        simp only [List.length_cons] at hl3
        have hb : rest3.length < cs.length := by omega
        dsimp only
        rw [parse_go_eq_parse hb]

end FormatRs

namespace FormatRs

theorem dropWhile_nonpercent_eq_nil {s : List Char} (h : ∀ c ∈ s, c ≠ '%') :
    s.dropWhile (fun c => c != '%') = [] := by
  have := dropWhile_all_append (fun c => c != '%') ([] : List Char) (nonpercent_bool h)
  simpa using this

theorem takeWhile_nonpercent_eq_self {s : List Char} (h : ∀ c ∈ s, c ≠ '%') :
    s.takeWhile (fun c => c != '%') = s := by
  have := takeWhile_all_append (fun c => c != '%') ([] : List Char) (nonpercent_bool h)
  simpa using this

theorem parse_no_percent {s : List Char} (h : ∀ c ∈ s, c ≠ '%') :
    parse s = .ok (text_pieces s) := by
  rw [parse_step, dropWhile_nonpercent_eq_nil h]
  dsimp only
  rw [takeWhile_nonpercent_eq_self h]

/-- C7: for every format string containing no `%` character, the assembled
output string equals the input with only trailing NUL characters stripped,
and the coercion table is empty. -/
theorem no_percent_passthrough (s : List Char) (h : ∀ c ∈ s, c ≠ '%') :
    assemble_format s = .ok (strip_nuls s, []) := by
  rw [assemble_format, parse_no_percent h]
  dsimp only
  by_cases hs : s.isEmpty
  · have hnil : s = [] := List.isEmpty_iff.mp hs
    subst hnil
    rfl
  · rw [text_pieces, if_neg hs]
    simp [run_pieces]

/-- C7 witness: a concrete format string with no `%` and a trailing NUL. -/
theorem no_percent_passthrough_witness :
    assemble_format ['h', 'i', Char.ofNat 0] = .ok (['h', 'i'], []) := by
  have := no_percent_passthrough ['h', 'i', Char.ofNat 0] (by decide)
  rw [this]
  rfl

/-- C8: each occurrence of `%%` is emitted as a single literal `%` text
piece in the output, adds no coercion-table entry, and does not advance the
argument-index counter (a `Text` piece leaves both unchanged). -/
theorem escaped_percent (t r : List Char) (h : ∀ c ∈ t, c ≠ '%') :
    parse (t ++ '%' :: '%' :: r) =
      (parse r).map (fun ps => text_pieces t ++ Piece.Text ['%'] :: ps) ∧
    ∀ (ps : List Piece) (buf : List Char) (idx : Nat) (casts : List (Nat × CastType)),
      run_pieces (Piece.Text ['%'] :: ps) buf idx casts =
        run_pieces ps (buf ++ ['%']) idx casts := by
  constructor
  · rw [parse_step, dropWhile_to_percent ('%' :: r) h, takeWhile_to_percent ('%' :: r) h]
    dsimp only
    rw [if_pos (beq_self_eq_true '%')]
    cases hpr : parse r <;> simp [Except.map]
  · intro ps buf idx casts
    rfl

/-- C8 witness: `"a%%b"` parses to text pieces only, and running the `%`
piece changes neither the counter nor the table. -/
theorem escaped_percent_witness :
    parse ['a', '%', '%', 'b'] =
      (parse ['b']).map (fun ps => text_pieces ['a'] ++ Piece.Text ['%'] :: ps) ∧
    run_pieces (Piece.Text ['%'] :: []) [] 5 [(0, CastType.Int)] =
      run_pieces [] ['%'] 5 [(0, CastType.Int)] := by
  have := escaped_percent ['a'] ['b'] (by decide)
  exact ⟨this.1, this.2 [] [] 5 [(0, CastType.Int)]⟩

/-- C4: for every assembled output buffer after trailing-NUL stripping —
if it ends with a newline and a newline-variant name was supplied, the
newline is removed and the newline variant is selected; with no
newline-variant name the plain variant is selected and the buffer is kept;
if it does not end with a newline the plain variant is selected and the
buffer is kept. -/
theorem newline_variant_selection (name lname buf : List Char) (ln : Option (List Char)) :
    (buf.getLast? = some newline_char →
      choose_variant name (some lname) buf = (lname, buf.dropLast)) ∧
    (choose_variant name none buf = (name, buf)) ∧
    (buf.getLast? ≠ some newline_char →
      choose_variant name ln buf = (name, buf)) := by
  refine ⟨fun hnl => ?_, rfl, fun hnl => ?_⟩
  · rw [choose_variant]
    rw [if_pos hnl]
  · cases ln with
    | none => rfl
    | some l =>
      rw [choose_variant]
      rw [if_neg hnl]

/-- C4 witness: `"ok\n"` with and without a newline-variant name, and a
buffer with no trailing newline. -/
theorem newline_variant_selection_witness :
    choose_variant ['p'] (some ['q']) ['o', 'k', Char.ofNat 10] = (['q'], ['o', 'k']) ∧
    choose_variant ['p'] none ['o', 'k', Char.ofNat 10] = (['p'], ['o', 'k', Char.ofNat 10]) ∧
    choose_variant ['p'] (some ['q']) ['o', 'k'] = (['p'], ['o', 'k']) := by
  refine ⟨?_, ?_, ?_⟩
  · exact (newline_variant_selection ['p'] ['q'] ['o', 'k', Char.ofNat 10] none).1 (by decide)
  · exact (newline_variant_selection ['p'] ['q'] ['o', 'k', Char.ofNat 10] none).2.1
  · exact (newline_variant_selection ['p'] ['q'] ['o', 'k'] (some ['q'])).2.2 (by decide)

/-- C2: for every conversion specifier, `add_casts` appends, in this exact
order — an `AsUsize` entry if the width is from-next-argument, an `AsUsize`
entry if the precision is from-next-argument, then one entry for the value
argument mapped by kind (`Int` to signed-int, `Uint`/`Hex` to unsigned-int,
`Char` to char-from-byte, `Str` to decoded C string) — each entry advancing
the running argument-index counter by one. -/
theorem add_casts_entries (c : FormatRs.Conv) (idx : Nat) (casts : List (Nat × CastType)) :
    add_casts c idx casts =
      (idx + (if c.width = some Amount.NextArg then 1 else 0)
           + (if c.prec = some Amount.NextArg then 1 else 0) + 1,
       casts
         ++ (if c.width = some Amount.NextArg then [(idx, CastType.Usize)] else [])
         ++ (if c.prec = some Amount.NextArg then
               [(idx + (if c.width = some Amount.NextArg then 1 else 0), CastType.Usize)]
             else [])
         ++ [(idx + (if c.width = some Amount.NextArg then 1 else 0)
                  + (if c.prec = some Amount.NextArg then 1 else 0),
              match c.ty with
              | ConvType.Int => CastType.Int
              | ConvType.Uint => CastType.Uint
              | ConvType.Hex _ => CastType.Uint
              | ConvType.Char => CastType.Char
              | ConvType.Str => CastType.Str)]) := by
  by_cases hw : c.width = some Amount.NextArg <;>
    by_cases hp : c.prec = some Amount.NextArg <;>
      simp [add_casts, hw, hp, List.append_assoc]

theorem coerce_args_enum (casts : List (Nat × CastType)) :
    ∀ (i : Nat) (args : List RExpr),
      coerce_args casts i args =
        (args.enumFrom i).filterMap
          (fun p => (casts_find p.1 casts).map (fun ct => cast_apply ct p.2)) := by
  intro i args
  induction args generalizing i with
  | nil => rfl
  | cons a rest ih =>
    rw [coerce_args, List.enumFrom_cons, List.filterMap_cons]
    cases hf : casts_find i casts <;> simp [hf, ih]

/-- C6: the rebuilt argument list contains exactly those arguments following
the format-string argument (`fmt_args.drop 1`) whose zero-based position has
a coercion-table entry, in order, each wrapped in its coercion; positions
with no entry are omitted. -/
theorem rebuilt_args_exact (casts : List (Nat × CastType)) (fmt_args : List RExpr) :
    coerce_args casts 0 (fmt_args.drop 1) =
      ((fmt_args.drop 1).enumFrom 0).filterMap
        (fun p => (casts_find p.1 casts).map (fun ct => cast_apply ct p.2)) :=
  coerce_args_enum casts 0 (fmt_args.drop 1)

end FormatRs

namespace FormatRs

/-- C1 counterexample: for `"%d"` with one integer argument the coercion
table produced by the engine is keyed from 0, not 1 — it maps index 0 to the
signed-int cast and has no entry at index 1 at all, so the argument-index
counter does not start at 1. -/
theorem counter_starts_at_zero_cex :
    assemble_format ['%', 'd'] = .ok ([lbrace, ':', rbrace], [(0, CastType.Int)]) ∧
    casts_find 1 [(0, CastType.Int)] = none ∧
    casts_find 0 [(0, CastType.Int)] = some CastType.Int := by
  refine ⟨rfl, rfl, rfl⟩

/-- C1 amended: the argument-index counter starts at 0 and the coercion
table is keyed by zero-based position among the arguments following the
format string; the format-string argument itself is dropped from the
rebuilt list and is never a coercion target.  For `"%d"` with one integer
argument the table maps index 0 to the signed-int cast, which is applied to
the argument immediately following the format string. -/
theorem fmt_d_coercion (x : RExpr) :
    assemble_format ['%', 'd'] = .ok ([lbrace, ':', rbrace], [(0, CastType.Int)]) ∧
    build_format_mac format_args_name none ['%', 'd'] [RExpr.lit ['%', 'd'], x] =
      .ok (.mac format_args_name [lbrace, ':', rbrace] [RExpr.cast x i32_ty]) :=
  ⟨rfl, rfl⟩

/-- C5 counterexample: a width digit sequence beginning with `0` is not
accepted as a literal width: `"%0d"` is rejected as an unrecognized
conversion (`0` reaches `parse_conv_type`) instead of parsing as width 0. -/
theorem width_leading_zero_cex :
    parse ['%', '0', 'd'] = .error (.MalformedSpecifier '0') := rfl

/-- C5 amended: a width is only recognized when it starts with a nonzero
digit or `*` — a digit sequence beginning with `0` after `%` is rejected as
an unrecognized conversion; when an amount is parsed, all consecutive
digits are consumed greedily and recorded as the literal non-negative
integer they denote. -/
theorem amount_digits_greedy (ds r : List Char) (h1 : ds ≠ [])
    (h2 : ∀ c ∈ ds, is_ascii_digit c = true)
    (h3 : ∀ c, r.head? = some c → is_ascii_digit c = false) :
    parse_amount (ds ++ r) = .ok (.Number (digits_to_nat ds), r) ∧
    ∀ rest, parse_spec_tail ('0' :: rest) = .error (.MalformedSpecifier '0') := by
  have htw : (ds ++ r).takeWhile is_ascii_digit = ds := by
    rw [takeWhile_all_append _ _ h2]
    cases hr : r with
    | nil => simp
    | cons c r2 =>
      rw [List.takeWhile_cons_of_neg (by simp [h3 c (by rw [hr]; rfl)])]
      simp
  have hdw : (ds ++ r).dropWhile is_ascii_digit = r := by
    rw [dropWhile_all_append _ _ h2]
    cases hr : r with
    | nil => simp
    | cons c r2 =>
      rw [List.dropWhile_cons_of_neg (by simp [h3 c (by rw [hr]; rfl)])]
  constructor
  · obtain ⟨d, ds2, rfl⟩ : ∃ d ds2, ds = d :: ds2 := by
      cases ds with
      | nil => exact absurd rfl h1
      | cons d ds2 => exact ⟨d, ds2, rfl⟩
    have hd : is_ascii_digit d = true := h2 d (List.mem_cons_self d ds2)
    have hns : d ≠ '*' := by
      intro he
      rw [he] at hd
      simp [is_ascii_digit] at hd
    rw [List.cons_append, parse_amount, if_neg hns]
    rw [← List.cons_append, htw, hdw]
    simp
  · intro rest
    rw [parse_spec_tail, parse_width_opt, if_neg (by decide)]
    dsimp only
    rw [parse_prec_opt, if_neg (by decide)]
    dsimp only
    rw [parse_conv_type, if_neg (by decide), if_neg (by decide), if_neg (by decide),
      if_neg (by decide), if_neg (by decide), if_neg (by decide)]

/-- C5 witness: `"12"` before a non-digit parses greedily to the literal 12,
and a `0`-led width position is a fatal unrecognized conversion. -/
theorem amount_digits_greedy_witness :
    parse_amount (['1', '2'] ++ ['d']) = .ok (.Number 12, ['d']) ∧
    parse_spec_tail ('0' :: ['d']) = .error (.MalformedSpecifier '0') := by
  have h := amount_digits_greedy ['1', '2'] ['d'] (by decide) (by decide)
    (by
      intro c hc
      have : c = 'd' := by simpa using hc.symm
      rw [this]
      decide)
  exact ⟨h.1, h.2 ['d']⟩

/-- The set of conversion letters `parse_conv_type` accepts. -/
def conv_letter_valid (c : Char) : Bool :=
  c == 'd' || c == 'u' || c == 'x' || c == 'X' || c == 'c' || c == 's'

/-- C3: a conversion specifier whose mandatory type letter is not one of
`d`, `u`, `x`, `X`, `c`, `s` makes the whole conversion fail with
`MalformedSpecifier`: the parse of the format string and the entire
`build_format_macro` call return that error and produce no output string
and no coercion table. -/
theorem unrecognized_conv_fatal (name t r : List Char) (ln : Option (List Char))
    (args : List RExpr) (c : Char)
    (ht : ∀ a ∈ t, a ≠ '%') (hc1 : c ≠ '%')
    (hc2 : is_nonzero_digit c = false) (hc3 : c ≠ '*') (hc4 : c ≠ '.')
    (hc5 : conv_letter_valid c = false) :
    (∀ rest, parse_conv_type (c :: rest) = .error (.MalformedSpecifier c)) ∧
    parse (t ++ '%' :: c :: r) = .error (.MalformedSpecifier c) ∧
    build_format_mac name ln (t ++ '%' :: c :: r) args = .error (.MalformedSpecifier c) := by
  simp only [conv_letter_valid, Bool.or_eq_false_iff, beq_eq_false_iff_ne, ne_eq] at hc5
  obtain ⟨⟨⟨⟨⟨hd, hu⟩, hx⟩, hX⟩, hcc⟩, hs⟩ := hc5
  have hconv : ∀ rest, parse_conv_type (c :: rest) = .error (.MalformedSpecifier c) := by
    intro rest
    rw [parse_conv_type, if_neg hd, if_neg hu, if_neg hx, if_neg hX, if_neg hcc, if_neg hs]
  have hparse : parse (t ++ '%' :: c :: r) = .error (.MalformedSpecifier c) := by
    rw [parse_step, dropWhile_to_percent (c :: r) ht]
    dsimp only
    rw [if_neg (by simp [hc1])]
    rw [parse_spec_tail, parse_width_opt, if_neg (by simp [hc2, hc3])]
    dsimp only
    rw [parse_prec_opt, if_neg (by simp [hc4])]
    dsimp only
    rw [hconv r]
  refine ⟨hconv, hparse, ?_⟩
  rw [build_format_mac, assemble_format, hparse]

/-- C3 witness: `"%q"` fails with `MalformedSpecifier` at every level. -/
theorem unrecognized_conv_fatal_witness :
    parse_conv_type ['q'] = .error (.MalformedSpecifier 'q') ∧
    parse ['%', 'q'] = .error (.MalformedSpecifier 'q') ∧
    build_format_mac ['p'] none ['%', 'q'] [] = .error (.MalformedSpecifier 'q') := by
  have h := unrecognized_conv_fatal ['p'] [] [] none [] 'q'
    (by decide) (by decide) (by decide) (by decide) (by decide) (by decide)
  exact ⟨h.1 [], h.2.1, h.2.2⟩

end FormatRs

namespace FormatRs

theorem parse_amount_subset {cs r : List Char} {a : Amount}
    (h : parse_amount cs = .ok (a, r)) : ∀ x ∈ r, x ∈ cs := by
  match cs with
  | [] => simp [parse_amount] at h
  | c :: rest =>
    simp only [parse_amount] at h
    by_cases h1 : c = '*'
    · rw [if_pos h1] at h
      simp only [Except.ok.injEq, Prod.mk.injEq] at h
      intro x hx
      rw [← h.2] at hx
      exact List.mem_cons_of_mem c hx
    · rw [if_neg h1] at h
      by_cases h2 : ((c :: rest).takeWhile is_ascii_digit).isEmpty = true
      · rw [if_pos h2] at h
        cases h
      · rw [if_neg h2] at h
        simp only [Except.ok.injEq, Prod.mk.injEq] at h
        intro x hx
        rw [← h.2] at hx
        exact (List.dropWhile_sublist is_ascii_digit).subset hx

theorem parse_width_opt_subset {cs r : List Char} {w : Option Amount}
    (h : parse_width_opt cs = .ok (w, r)) : ∀ x ∈ r, x ∈ cs := by
  match cs with
  | [] => simp [parse_width_opt] at h
  | c :: rest =>
    simp only [parse_width_opt] at h
    split_ifs at h
    · match hpa : parse_amount (c :: rest) with
      | .error e => rw [hpa] at h; cases h
      | .ok p =>
        rw [hpa] at h
        simp only [Except.map, Except.ok.injEq, Prod.mk.injEq] at h
        intro x hx
        rw [← h.2] at hx
        exact parse_amount_subset hpa x hx
    · simp only [Except.ok.injEq, Prod.mk.injEq] at h
      intro x hx
      rw [← h.2] at hx
      exact hx

theorem parse_prec_opt_subset {cs r : List Char} {p : Option Amount}
    (h : parse_prec_opt cs = .ok (p, r)) : ∀ x ∈ r, x ∈ cs := by
  match cs with
  | [] => simp [parse_prec_opt] at h
  | d :: rest =>
    simp only [parse_prec_opt] at h
    split_ifs at h
    · match hpa : parse_amount rest with
      | .error e => rw [hpa] at h; cases h
      | .ok q =>
        rw [hpa] at h
        simp only [Except.map, Except.ok.injEq, Prod.mk.injEq] at h
        intro x hx
        rw [← h.2] at hx
        exact List.mem_cons_of_mem d (parse_amount_subset hpa x hx)
    · simp only [Except.ok.injEq, Prod.mk.injEq] at h
      intro x hx
      rw [← h.2] at hx
      exact hx

/-- Characters that may legally occur in the width/precision portion of a
specifier: decimal digits, `*` and `.`. -/
def wp_char (c : Char) : Bool :=
  is_ascii_digit c || c == '*' || c == '.'

theorem parse_spec_tail_wp {cs : List Char} (h : ∀ x ∈ cs, wp_char x = true) :
    ∃ e, parse_spec_tail cs = .error e := by
  rw [parse_spec_tail]
  match hw : parse_width_opt cs with
  | .error e => exact ⟨e, rfl⟩
  | .ok (w, rest1) =>
    dsimp only
    have h1 : ∀ x ∈ rest1, wp_char x = true :=
      fun x hx => h x (parse_width_opt_subset hw x hx)
    match hp : parse_prec_opt rest1 with
    | .error e => exact ⟨e, rfl⟩
    | .ok (p, rest3) =>
      dsimp only
      have h3 : ∀ x ∈ rest3, wp_char x = true :=
        fun x hx => h1 x (parse_prec_opt_subset hp x hx)
      match rest3 with
      | [] => exact ⟨.UnexpectedEndOfFormat, rfl⟩
      | e0 :: rest4 =>
        have hwp : wp_char e0 = true := h3 e0 (List.mem_cons_self e0 rest4)
        have hne : ∀ l : Char, wp_char l = false → e0 ≠ l := by
          intro l hl heq
          rw [heq] at hwp
          rw [hwp] at hl
          cases hl
        refine ⟨.MalformedSpecifier e0, ?_⟩
        rw [parse_conv_type, if_neg (hne 'd' (by decide)), if_neg (hne 'u' (by decide)),
          if_neg (hne 'x' (by decide)), if_neg (hne 'X' (by decide)),
          if_neg (hne 'c' (by decide)), if_neg (hne 's' (by decide))]

/-- C9: a format string that ends before the mandatory type letter of a
conversion specifier is read — a bare trailing `%`, or `%` followed only by
width/precision characters — is a fatal parse error, never a `Conv` piece
and never a silent stop. -/
theorem truncated_spec_fatal (t w : List Char) (ht : ∀ a ∈ t, a ≠ '%')
    (hw : ∀ a ∈ w, wp_char a = true) :
    ∃ e, parse (t ++ '%' :: w) = .error e := by
  rw [parse_step, dropWhile_to_percent w ht]
  dsimp only
  match w, hw with
  | [], _ => exact ⟨.UnexpectedEndOfFormat, rfl⟩
  | c :: w2, hw =>
    dsimp only
    have hc : c ≠ '%' := by
      intro heq
      have hcc := hw c (List.mem_cons_self c w2)
      rw [heq] at hcc
      exact absurd hcc (by decide)
    rw [if_neg (by simp [hc])]
    obtain ⟨e, he⟩ := parse_spec_tail_wp hw
    exact ⟨e, by rw [he]⟩

/-- C9 witness: `"a%12."` — the string ends inside the specifier. -/
theorem truncated_spec_fatal_witness :
    ∃ e, parse (['a'] ++ '%' :: ['1', '2', '.']) = .error e :=
  truncated_spec_fatal ['a'] ['1', '2', '.'] (by decide) (by decide)

end FormatRs

namespace FormatRs

theorem build_format_mac_from_args_shape {name : List Char} {ln : Option (List Char)}
    {old : Option RExpr} {fa : List RExpr} {m : RExpr}
    (h : build_format_mac_from_args name ln old fa = .ok m) :
    ∃ nm fs ms, m = .mac nm fs ms := by
  rw [build_format_mac_from_args.eq_def] at h
  split at h
  · cases h
  · split at h
    · cases h
    · rw [build_format_mac] at h
      split at h
      · cases h
      · exact ⟨_, _, _, (Except.ok.inj h).symm⟩

/-- C10: `convert_format_args` on a call whose argument at position `k` is
the marked format string keeps the callee and the arguments at positions 0
through `k - 1` unchanged, and replaces everything from position `k` onward
by a single macro-invocation expression. -/
theorem convert_call_frame (f : RExpr) (args : List RExpr) (k : Nat)
    (old : Option RExpr) (r : RExpr) (hk : k < args.length)
    (h : convert_format_args f args k old = .ok r) :
    ∃ m, (∃ nm fs ms, m = RExpr.mac nm fs ms) ∧
      r = .call f (args.take k ++ [m]) ∧
      (args.take k ++ [m]).length = k + 1 ∧
      (∀ i : Nat, i < k → (args.take k ++ [m])[i]? = args[i]?) ∧
      (args.take k ++ [m])[k]? = some m := by
  rw [convert_format_args] at h
  match hb : build_format_mac_from_args format_args_name none old (args.drop k) with
  | .error e => rw [hb] at h; cases h
  | .ok m =>
    rw [hb] at h
    dsimp only at h
    have hlen : (args.take k).length = k := by
      rw [List.length_take]
      omega
    refine ⟨m, build_format_mac_from_args_shape hb, (Except.ok.inj h).symm, ?_, ?_, ?_⟩
    · simp [hlen]
    · intro i hi
      rw [List.getElem?_append, if_pos (by rw [hlen]; omega)]
      exact List.getElem?_take_of_lt hi
    · rw [List.getElem?_append, if_neg (by rw [hlen]; omega), hlen]
      simp

/-- C10 witness: a call `f(a, "%d", b)` with the format string at position
1 is rebuilt as `f(a, format_args!(...))`. -/
theorem convert_call_frame_witness :
    ∃ m, (∃ nm fs ms, m = RExpr.mac nm fs ms) ∧
      RExpr.call (.var 0)
          [RExpr.var 1,
           .mac format_args_name [lbrace, ':', rbrace] [.cast (.var 2) i32_ty]] =
        .call (.var 0) (([RExpr.var 1, .lit ['%', 'd'], .var 2].take 1) ++ [m]) ∧
      (([RExpr.var 1, .lit ['%', 'd'], .var 2].take 1) ++ [m]).length = 1 + 1 ∧
      (∀ i : Nat, i < 1 →
        (([RExpr.var 1, .lit ['%', 'd'], .var 2].take 1) ++ [m])[i]? =
          [RExpr.var 1, .lit ['%', 'd'], .var 2][i]?) ∧
      (([RExpr.var 1, .lit ['%', 'd'], .var 2].take 1) ++ [m])[1]? = some m :=
  convert_call_frame (.var 0) [.var 1, .lit ['%', 'd'], .var 2] 1 none
    (.call (.var 0)
      [.var 1, .mac format_args_name [lbrace, ':', rbrace] [.cast (.var 2) i32_ty]])
    (by decide) rfl

end FormatRs
